import Mathlib

/-!
# Verification of the `pauli` crate's core algebra

A shallow embedding of the `pauli` Rust library: the single-qubit Pauli
group (`src/pauli.rs`), the exact phase group (`src/phase.rs`), the sparse
multi-qubit operator (`src/operator.rs`, backed by `sprs::CsVec`) and the
dense multi-qubit operator (`src/operators/dense.rs`), together with
theorems settling the specification claims about them.
-/

/-- The four single-qubit Pauli operators, from `enum Pauli` in
`src/pauli.rs`. -/
inductive Pauli : Type where
  | I : Pauli
  | X : Pauli
  | Y : Pauli
  | Z : Pauli
deriving DecidableEq, Repr, Fintype

/-- The global phase, from `struct Phase(Complex<i8>)` in `src/phase.rs`:
a Gaussian-integer pair.  The `i8` components are modelled as `Int`; every
value reachable through the crate's constructors and multiplication keeps
both components in `{-1, 0, 1}`, far from any `i8` overflow. -/
structure Phase : Type where
  re : Int
  im : Int
deriving DecidableEq, Repr

/-- `Phase::one()`. -/
def Phase.one : Phase := ⟨1, 0⟩

/-- `Phase::minus_one()`. -/
def Phase.minus_one : Phase := ⟨-1, 0⟩

/-- `Phase::i()`. -/
def Phase.i : Phase := ⟨0, 1⟩

/-- `Phase::minus_i()`. -/
def Phase.minus_i : Phase := ⟨0, -1⟩

/-- `impl Mul<Phase> for Phase`: component-wise complex (Gaussian-integer)
multiplication, as performed by `num_complex::Complex<i8>`. -/
def Phase.mul (a b : Phase) : Phase :=
  ⟨a.re * b.re - a.im * b.im, a.re * b.im + a.im * b.re⟩

/-- The invariant stated by the spec for `Phase`: the value is one of the
four constructors. -/
def Phase.validUnit (p : Phase) : Prop :=
  p = Phase.one ∨ p = Phase.minus_one ∨ p = Phase.i ∨ p = Phase.minus_i

instance (p : Phase) : Decidable p.validUnit := by
  unfold Phase.validUnit; infer_instance

/-- `Pauli::commutes_with` from `src/pauli.rs`:
`self == I || other == I || self == other`. -/
def Pauli.commutes_with (a b : Pauli) : Bool :=
  a == Pauli.I || b == Pauli.I || a == b

/-- `Pauli::anticommutes_with`: the negation of `commutes_with`. -/
def Pauli.anticommutes_with (a b : Pauli) : Bool :=
  !a.commutes_with b

/-- `Pauli::is_non_trivial`: `self != I`. -/
def Pauli.is_non_trivial (a : Pauli) : Bool :=
  a != Pauli.I

/-- `Pauli::is_trivial`: `self == I`. -/
def Pauli.is_trivial (a : Pauli) : Bool :=
  a == Pauli.I

/-- `Pauli::multiply_with_phase` from `src/pauli.rs`: the 11-arm match
(identity rows collapse the 16-entry table). -/
def Pauli.multiply_with_phase (a b : Pauli) : Phase × Pauli :=
  match a, b with
  | .I, p => (Phase.one, p)
  | p, .I => (Phase.one, p)
  | .X, .X => (Phase.one, .I)
  | .X, .Y => (Phase.i, .Z)
  | .X, .Z => (Phase.minus_i, .Y)
  | .Y, .X => (Phase.minus_i, .Z)
  | .Y, .Y => (Phase.one, .I)
  | .Y, .Z => (Phase.i, .X)
  | .Z, .X => (Phase.i, .Y)
  | .Z, .Y => (Phase.minus_i, .X)
  | .Z, .Z => (Phase.one, .I)

/-- One pass through the match arms of `impl Mul<Pauli> for Pauli`
(`src/pauli.rs`) without the final `(p, q) => q * p` fallback: `none`
means the fallback arm was reached.  The Rust guard arm
`(p, q) if p == q => I` is placed after the three cyclic arms here; the
two orders agree because no pair matches both. -/
def Pauli.mulOnce (a b : Pauli) : Option Pauli :=
  match a, b with
  | .I, p => some p
  | .X, .Y => some .Z
  | .Y, .Z => some .X
  | .Z, .X => some .Y
  | p, q => if p = q then some .I else none

/-- Phase-free `impl Mul<Pauli> for Pauli`: the direct arms, with the
`(p, q) => q * p` fallback unfolded exactly once.  The fallback always
hits a direct arm (`pauli_mulOnce_total`), so the `.getD .I` default is
never used. -/
def Pauli.mul (a b : Pauli) : Pauli :=
  match Pauli.mulOnce a b with
  | some r => r
  | none => (Pauli.mulOnce b a).getD .I

/-- The error type from `src/operator.rs`: `enum PauliError`. -/
inductive PauliError : Type where
  | IncompatibleLength : Nat → Nat → PauliError
  | OutOfBound : Nat → Nat → PauliError
deriving DecidableEq, Repr

/-- `struct PauliOperator { paulis: CsVec<Pauli> }` from `src/operator.rs`.
The backing `sprs::CsVec` is flattened into its dimension (`length`) and
its parallel index/value storage, kept as an association list of
`(position, Pauli)` entries. -/
structure PauliOperator : Type where
  length : Nat
  entries : List (Nat × Pauli)
deriving DecidableEq, Repr

/-- `PauliOperator::len`: the backing vector's dimension. -/
def PauliOperator.len (op : PauliOperator) : Nat := op.length

/-- `PauliOperator::weight`: the number of stored (non-identity) entries. -/
def PauliOperator.weight (op : PauliOperator) : Nat := op.entries.length

/-- `PauliOperator::non_trivial_positions`: the stored index list. -/
def PauliOperator.non_trivial_positions (op : PauliOperator) : List Nat :=
  op.entries.map Prod.fst

/-- The structure check performed by `sprs::CsVec::new` on its index
list: `indices.windows(2).all(|w| w[0] < w[1])`, i.e. strictly
increasing. -/
def sortedIndices : List Nat → Bool
  | [] => true
  | [_] => true
  | a :: b :: t => decide (a < b) && sortedIndices (b :: t)

/-- Models `sprs::CsVec::new(dim, indices, data)`, the backing constructor
used by `PauliOperator::try_new` and `PauliOperator::new`.  Per the sprs
documentation it panics when the index list is out of order (the
`sortedIndices` check above; it never sorts or deduplicates); `none`
models that panic.  The index/data length mismatch panic is unreachable
here because `try_new` checks the lengths first. -/
def csVecNew (dim : Nat) (positions : List Nat) (paulis : List Pauli) :
    Option PauliOperator :=
  if sortedIndices positions then
    some ⟨dim, positions.zip paulis⟩
  else
    none

/-- `PauliOperator::try_new` from `src/operator.rs`.  The outer `Except`
is the Rust `Result`; the inner `Option` models the panic inside the
backing `CsVec::new` (`none` = panic). -/
def PauliOperator.tryNew (length : Nat) (positions : List Nat)
    (paulis : List Pauli) : Except PauliError (Option PauliOperator) :=
  if positions.length ≠ paulis.length then
    .error (.IncompatibleLength positions.length paulis.length)
  else
    match positions.find? (fun pos => length ≤ pos) with
    | some pos => .error (.OutOfBound pos length)
    | none => .ok (csVecNew length positions paulis)

/-- `PauliOperator::new`: `try_new(..).expect(..)` — both the `Err` path
and the `CsVec::new` panic become `none`. -/
def PauliOperator.new (length : Nat) (positions : List Nat)
    (paulis : List Pauli) : Option PauliOperator :=
  match PauliOperator.tryNew length positions paulis with
  | .error _ => none
  | .ok o => o

/-- The well-formedness half-invariant maintained by the backing
`CsVec`: stored positions strictly increasing (hence unique). -/
def PauliOperator.sortedEntries (op : PauliOperator) : Prop :=
  op.entries.Pairwise (fun e f => e.1 < f.1)

instance (op : PauliOperator) : Decidable op.sortedEntries := by
  unfold PauliOperator.sortedEntries; infer_instance

/-- The other half-invariant: every stored position is below the
declared length. -/
def PauliOperator.inBounds (op : PauliOperator) : Prop :=
  ∀ e ∈ op.entries, e.1 < op.length

instance (op : PauliOperator) : Decidable op.inBounds := by
  unfold PauliOperator.inBounds; infer_instance

/-- Models `sprs`' `nnz_zip` merge iterator as used by
`PauliOperator::commutes_with`: walk both sorted index lists and yield
`(position, left value, right value)` exactly at indices stored in both. -/
def nnzZip : List (Nat × Pauli) → List (Nat × Pauli) →
    List (Nat × Pauli × Pauli)
  | [], _ => []
  | _ :: _, [] => []
  | (i, p) :: xs, (j, q) :: ys =>
    if i < j then nnzZip xs ((j, q) :: ys)
    else if j < i then nnzZip ((i, p) :: xs) ys
    else (i, p, q) :: nnzZip xs ys
termination_by xs ys => xs.length + ys.length

/-- `sprs`' `NnzEither`: which side(s) of the merge an index came from. -/
inductive NnzEither : Type where
  | left : Pauli → NnzEither
  | right : Pauli → NnzEither
  | both : Pauli → Pauli → NnzEither
deriving DecidableEq, Repr

/-- Models `sprs`' `nnz_or_zip` merge iterator as used by
`PauliOperator::multiply_with`: walk both sorted index lists and yield
every index stored in either operand, tagged with its origin. -/
def nnzOrZip : List (Nat × Pauli) → List (Nat × Pauli) →
    List (Nat × NnzEither)
  | [], ys => ys.map (fun e => (e.1, .right e.2))
  | x :: xs, [] => ((x :: xs).map (fun e => (e.1, .left e.2)))
  | (i, p) :: xs, (j, q) :: ys =>
    if i < j then (i, .left p) :: nnzOrZip xs ((j, q) :: ys)
    else if j < i then (j, .right q) :: nnzOrZip ((i, p) :: xs) ys
    else (i, .both p q) :: nnzOrZip xs ys
termination_by xs ys => xs.length + ys.length

/-- `PauliOperator::commutes_with` from `src/operator.rs`: parity of the
anticommuting overlaps produced by `nnz_zip`. -/
def PauliOperator.commutes_with (a b : PauliOperator) : Bool :=
  ((nnzZip a.entries b.entries).countP
      (fun e => e.2.1.anticommutes_with e.2.2)) % 2 == 0

/-- `PauliOperator::anticommutes_with`: the negation. -/
def PauliOperator.anticommutes_with (a b : PauliOperator) : Bool :=
  !a.commutes_with b

/-- The `map` arm dispatch inside `PauliOperator::multiply_with`:
carry one-sided values through, multiply both-sided values. -/
def mergedValue (x : Nat × NnzEither) : Nat × Pauli :=
  match x with
  | (pos, .left p) => (pos, p)
  | (pos, .right q) => (pos, q)
  | (pos, .both p q) => (pos, Pauli.mul p q)

/-- `PauliOperator::multiply_with` from `src/operator.rs`: length check,
`nnz_or_zip` merge, value dispatch, drop trivial products, rebuild through
`PauliOperator::new` (whose panic is the inner `none`). -/
def PauliOperator.multiply_with (a b : PauliOperator) :
    Except PauliError (Option PauliOperator) :=
  if a.length ≠ b.length then
    .error (.IncompatibleLength a.length b.length)
  else
    let kept := ((nnzOrZip a.entries b.entries).map mergedValue).filter
      (fun e => e.2.is_non_trivial)
    .ok (PauliOperator.new a.length (kept.map Prod.fst) (kept.map Prod.snd))

/-- `struct DensePauliOperator { paulis: Vec<Pauli>, phase: Phase }` from
`src/operators/dense.rs`. -/
structure DensePauliOperator : Type where
  paulis : List Pauli
  phase : Phase
deriving DecidableEq, Repr

/-- `impl Mul<&DensePauliOperator> for &DensePauliOperator`
(`src/operators/dense.rs`): `assert_same_length` panic modelled as `none`,
then the fold accumulating `(total_phase, paulis)` over the zipped
sequences, and the final phase `phase * self.phase * other.phase`. -/
def DensePauliOperator.mulOp (a b : DensePauliOperator) :
    Option DensePauliOperator :=
  if a.paulis.length ≠ b.paulis.length then none
  else
    let r := (a.paulis.zip b.paulis).foldl
      (fun s pq =>
        (s.1.mul (pq.1.multiply_with_phase pq.2).1,
         s.2 ++ [(pq.1.multiply_with_phase pq.2).2]))
      (Phase.one, [])
    some { paulis := r.2, phase := (r.1.mul a.phase).mul b.phase }

/-- `impl Mul<Pauli> for &DensePauliOperator`
(`src/operators/dense.rs`): fold the phase-aware product of each stored
Pauli (left factor) with the given Pauli (right factor), final phase
`self.phase * phase`. -/
def DensePauliOperator.mulPauli (a : DensePauliOperator) (p : Pauli) :
    DensePauliOperator :=
  let r := a.paulis.foldl
    (fun s q =>
      (s.1.mul (q.multiply_with_phase p).1,
       s.2 ++ [(q.multiply_with_phase p).2]))
    (Phase.one, [])
  { paulis := r.2, phase := a.phase.mul r.1 }

/-- `impl_commutative_mul!(Pauli)` (`src/operators/dense.rs`): the
left-scalar form `pauli * &operator` delegates to `operator * pauli`. -/
def pauliMulOp (p : Pauli) (a : DensePauliOperator) : DensePauliOperator :=
  a.mulPauli p

/-- Spec-side count, following the spec's words: the number of positions
stored in BOTH operands at which the two stored Paulis anticommute. -/
def overlapAnticommuteCount (a b : PauliOperator) : Nat :=
  a.entries.countP (fun e =>
    match b.entries.lookup e.1 with
    | some q => e.2.anticommutes_with q
    | none => false)

/-- The entry list built inside `PauliOperator::multiply_with` before the
rebuild: merge, dispatch, drop trivial products. -/
def keptEntries (a b : PauliOperator) : List (Nat × Pauli) :=
  ((nnzOrZip a.entries b.entries).map mergedValue).filter
    (fun e => e.2.is_non_trivial)

/-- The product's value at each position, following the spec's words: a
position present in only one operand keeps that operand's value, a
position present in both holds the phase-free Pauli product, and entries
whose product is the identity are dropped. -/
def specProductEntry (a b : PauliOperator) (pos : Nat) : Option Pauli :=
  match a.entries.lookup pos, b.entries.lookup pos with
  | some p, none => some p
  | none, some q => some q
  | some p, some q =>
    if (Pauli.mul p q).is_non_trivial then some (Pauli.mul p q) else none
  | none, none => none

/-- The canonical-form invariant: no identity values are stored. -/
def PauliOperator.nonTrivialEntries (op : PauliOperator) : Prop :=
  ∀ e ∈ op.entries, e.2 ≠ Pauli.I

instance (op : PauliOperator) : Decidable op.nonTrivialEntries := by
  unfold PauliOperator.nonTrivialEntries; infer_instance

/-- The swapped-argument fallback of the phase-free product always hits a
direct match arm, so `Pauli.mul` faithfully unfolds the Rust recursion. -/
theorem pauli_mulOnce_total (a b : Pauli) :
    (Pauli.mulOnce a b).isSome = true ∨ (Pauli.mulOnce b a).isSome = true := by
  revert a b; decide

/-- Characterization of the fold inside the dense operator product: it
returns the position-wise phases folded together and the position-wise
phase-free products pushed in order. -/
theorem dense_fold_char (l : List (Pauli × Pauli)) :
    ∀ (ph : Phase) (acc : List Pauli),
    l.foldl
      (fun s pq =>
        (s.1.mul (pq.1.multiply_with_phase pq.2).1,
         s.2 ++ [(pq.1.multiply_with_phase pq.2).2])) (ph, acc) =
      ((l.map (fun pq => (pq.1.multiply_with_phase pq.2).1)).foldl
          Phase.mul ph,
       acc ++ l.map (fun pq => (pq.1.multiply_with_phase pq.2).2)) := by
  induction l with
  | nil => intro ph acc; simp
  | cons x t ih => intro ph acc; simp [ih]

/-- Characterization of the fold inside the dense-operator-times-Pauli
product, analogous to `dense_fold_char`. -/
theorem pauli_fold_char (p : Pauli) (l : List Pauli) :
    ∀ (ph : Phase) (acc : List Pauli),
    l.foldl
      (fun s q =>
        (s.1.mul (q.multiply_with_phase p).1,
         s.2 ++ [(q.multiply_with_phase p).2])) (ph, acc) =
      ((l.map (fun q => (q.multiply_with_phase p).1)).foldl Phase.mul ph,
       acc ++ l.map (fun q => (q.multiply_with_phase p).2)) := by
  induction l with
  | nil => intro ph acc; simp
  | cons x t ih => intro ph acc; simp [ih]

/-- C1: for equal-length dense operators, multiplication returns the
position-wise phase-free Pauli products with phase equal to the folded
per-position phases times the left phase times the right phase; in
particular `(i)·[I,X,Y,Z]` times `[X,Z,X,Z]` is `(-i)·[X,Y,Z,I]`. -/
theorem c1_dense_mul (a b : DensePauliOperator)
    (h : a.paulis.length = b.paulis.length) :
    (a.mulOp b = some
      { paulis := (a.paulis.zip b.paulis).map
          (fun pq => (pq.1.multiply_with_phase pq.2).2),
        phase := ((((a.paulis.zip b.paulis).map
            (fun pq => (pq.1.multiply_with_phase pq.2).1)).foldl
              Phase.mul Phase.one).mul a.phase).mul b.phase }) ∧
    DensePauliOperator.mulOp ⟨[.I, .X, .Y, .Z], Phase.i⟩
        ⟨[.X, .Z, .X, .Z], Phase.one⟩ =
      some ⟨[.X, .Y, .Z, .I], Phase.minus_i⟩ := by
  constructor
  · simp [DensePauliOperator.mulOp, h, dense_fold_char]
  · decide

/-- Witness for C1 at a concrete pair of length-1 operators. -/
theorem c1_dense_mul_witness :
    ((DensePauliOperator.mk [.X] Phase.i).mulOp ⟨[.Y], Phase.one⟩ = some
      { paulis := ([Pauli.X].zip [Pauli.Y]).map
          (fun pq => (pq.1.multiply_with_phase pq.2).2),
        phase := ((([Pauli.X].zip [Pauli.Y]).map
            (fun pq => (pq.1.multiply_with_phase pq.2).1)).foldl
              Phase.mul Phase.one).mul Phase.i |>.mul Phase.one }) ∧
    DensePauliOperator.mulOp ⟨[.I, .X, .Y, .Z], Phase.i⟩
        ⟨[.X, .Z, .X, .Z], Phase.one⟩ =
      some ⟨[.X, .Y, .Z, .I], Phase.minus_i⟩ :=
  c1_dense_mul ⟨[.X], Phase.i⟩ ⟨[.Y], Phase.one⟩ rfl

/-- C3: the full `multiply_with_phase` table — identity rows, equal
non-identity pairs annihilating with phase 1, and the six cyclic pairs
with phase ±i; the function is total by construction. -/
theorem c3_multiply_with_phase_table :
    (∀ b : Pauli, Pauli.multiply_with_phase .I b = (Phase.one, b)) ∧
    (∀ a : Pauli, Pauli.multiply_with_phase a .I = (Phase.one, a)) ∧
    Pauli.multiply_with_phase .X .X = (Phase.one, .I) ∧
    Pauli.multiply_with_phase .Y .Y = (Phase.one, .I) ∧
    Pauli.multiply_with_phase .Z .Z = (Phase.one, .I) ∧
    Pauli.multiply_with_phase .X .Y = (Phase.i, .Z) ∧
    Pauli.multiply_with_phase .Y .X = (Phase.minus_i, .Z) ∧
    Pauli.multiply_with_phase .Y .Z = (Phase.i, .X) ∧
    Pauli.multiply_with_phase .Z .Y = (Phase.minus_i, .X) ∧
    Pauli.multiply_with_phase .Z .X = (Phase.i, .Y) ∧
    Pauli.multiply_with_phase .X .Z = (Phase.minus_i, .Y) := by
  decide

/-- C7: the phase-free single-qubit product is commutative over all 16
pairs, has `I` as two-sided identity, every element self-inverse, is
associative, and follows the cyclic rule. -/
theorem c7_pauli_mul_commutative :
    (∀ a b : Pauli, Pauli.mul a b = Pauli.mul b a) ∧
    (∀ p : Pauli, Pauli.mul .I p = p ∧ Pauli.mul p .I = p) ∧
    (∀ p : Pauli, Pauli.mul p p = .I) ∧
    (∀ a b c : Pauli,
      Pauli.mul (Pauli.mul a b) c = Pauli.mul a (Pauli.mul b c)) ∧
    Pauli.mul .X .Y = .Z ∧ Pauli.mul .Y .Z = .X ∧ Pauli.mul .Z .X = .Y := by
  decide

/-- The phase group is closed under multiplication. -/
theorem phase_mul_validUnit {a b : Phase} (ha : a.validUnit)
    (hb : b.validUnit) : (a.mul b).validUnit := by
  rcases ha with rfl | rfl | rfl | rfl <;>
    rcases hb with rfl | rfl | rfl | rfl <;> decide

/-- Every per-position phase produced by `multiply_with_phase` is one of
the four constructors. -/
theorem mwp_phase_validUnit (p q : Pauli) :
    (p.multiply_with_phase q).1.validUnit := by
  revert p q; decide

/-- Folding valid phases from a valid seed stays in the group. -/
theorem foldl_phase_validUnit (l : List Phase)
    (h : ∀ x ∈ l, x.validUnit) :
    ∀ init : Phase, init.validUnit → (l.foldl Phase.mul init).validUnit := by
  induction l with
  | nil => intro init hi; simpa using hi
  | cons x t ih =>
    intro init hi
    simp only [List.foldl_cons]
    exact ih (fun y hy => h y (List.mem_cons_of_mem _ hy)) _
      (phase_mul_validUnit hi (h x (List.mem_cons_self _ _)))

/-- C9: the product of any two of the four phase values is again one of
the four (never both components non-zero), and consequently the phase of
any dense operator product of valid-phase operands is one of
{1, -1, i, -i}. -/
theorem c9_phase_closure :
    (∀ a b : Phase, a.validUnit → b.validUnit →
      (a.mul b).validUnit ∧ ¬((a.mul b).re ≠ 0 ∧ (a.mul b).im ≠ 0)) ∧
    (∀ a b c : DensePauliOperator, a.phase.validUnit → b.phase.validUnit →
      a.mulOp b = some c → c.phase.validUnit) := by
  constructor
  · intro a b ha hb
    refine ⟨phase_mul_validUnit ha hb, ?_⟩
    rcases phase_mul_validUnit ha hb with h | h | h | h <;> rw [h] <;> decide
  · intro a b c ha hb hc
    unfold DensePauliOperator.mulOp at hc
    by_cases h : a.paulis.length ≠ b.paulis.length
    · rw [if_pos h] at hc; exact absurd hc (by simp)
    · rw [if_neg h] at hc
      simp only [dense_fold_char] at hc
      cases Option.some.inj hc
      exact phase_mul_validUnit
        (phase_mul_validUnit
          (foldl_phase_validUnit _
            (by
              intro x hx
              obtain ⟨pq, _, rfl⟩ := List.mem_map.mp hx
              exact mwp_phase_validUnit pq.1 pq.2)
            Phase.one (Or.inl rfl))
          ha)
        hb

/-- Witness for C9 at the concrete pair (i, i). -/
theorem c9_phase_closure_witness :
    (Phase.mul Phase.i Phase.i).validUnit ∧
    ¬((Phase.mul Phase.i Phase.i).re ≠ 0 ∧
      (Phase.mul Phase.i Phase.i).im ≠ 0) :=
  c9_phase_closure.1 Phase.i Phase.i (Or.inr (Or.inr (Or.inl rfl)))
    (Or.inr (Or.inr (Or.inl rfl)))

/-- C10: `pauli * &operator` delegates to `&operator * pauli`, and the
right-scalar form multiplies each stored Pauli (as left factor) with the
given Pauli (as right factor) through the phase-aware table. -/
theorem c10_pauli_scalar_commutes :
    ∀ (p : Pauli) (a : DensePauliOperator),
      pauliMulOp p a = a.mulPauli p ∧
      (a.mulPauli p).paulis =
        a.paulis.map (fun q => (q.multiply_with_phase p).2) ∧
      (a.mulPauli p).phase =
        a.phase.mul ((a.paulis.map
          (fun q => (q.multiply_with_phase p).1)).foldl
            Phase.mul Phase.one) := by
  intro p a
  refine ⟨rfl, ?_, ?_⟩ <;> simp [DensePauliOperator.mulPauli, pauli_fold_char]

/-- In a strictly key-sorted non-empty list, every tail key exceeds the
head key. -/
theorem keys_lt_of_pairwise {β : Type} {i : Nat} {v : β} {xs : List (Nat × β)}
    (h : List.Pairwise (fun e f => e.1 < f.1) ((i, v) :: xs)) :
    ∀ k ∈ xs.map Prod.fst, i < k := by
  intro k hk
  obtain ⟨e, he, rfl⟩ := List.mem_map.mp hk
  exact List.rel_of_pairwise_cons h he

/-- Association-list lookup skips a head entry with a different key. -/
theorem lookup_cons_ne {β : Type} {k j : Nat} (q : β) (ys : List (Nat × β))
    (h : k ≠ j) : ((j, q) :: ys).lookup k = ys.lookup k := by
  have hb : (k == j) = false := beq_eq_false_iff_ne.mpr h
  rw [List.lookup_cons, hb]

/-- Association-list lookup of an absent key returns `none`. -/
theorem lookup_eq_none_of_forall {β : Type} {k : Nat} :
    ∀ {ys : List (Nat × β)}, (∀ e ∈ ys, e.1 ≠ k) → ys.lookup k = none := by
  intro ys
  induction ys with
  | nil => intro _; rfl
  | cons y t ih =>
    intro h
    obtain ⟨j, q⟩ := y
    rw [lookup_cons_ne q t (Ne.symm (h (j, q) (List.mem_cons_self _ _)))]
    exact ih (fun e he => h e (List.mem_cons_of_mem _ he))

/-- A successful association-list lookup exhibits a stored entry. -/
theorem mem_of_lookup_some {β : Type} {k : Nat} {v : β} :
    ∀ {l : List (Nat × β)}, l.lookup k = some v → (k, v) ∈ l := by
  intro l
  induction l with
  | nil => intro h; exact absurd h (by simp)
  | cons e t ih =>
    intro h
    obtain ⟨j, q⟩ := e
    by_cases hk : k = j
    · subst hk
      rw [List.lookup_cons_self] at h
      have hv := Option.some.inj h
      subst hv
      exact List.mem_cons_self _ _
    · rw [lookup_cons_ne q t hk] at h
      exact List.mem_cons_of_mem _ (ih h)

/-- The anticommuting-overlap count computed through the `nnz_zip` merge
equals, for sorted operands, the count over the left operand's entries of
positions also stored in the right operand with anticommuting values. -/
theorem nnzZip_anticommute_count :
    ∀ (xs ys : List (Nat × Pauli)),
      xs.Pairwise (fun e f => e.1 < f.1) →
      ys.Pairwise (fun e f => e.1 < f.1) →
      (nnzZip xs ys).countP (fun e => e.2.1.anticommutes_with e.2.2) =
        xs.countP (fun e =>
          match ys.lookup e.1 with
          | some q => e.2.anticommutes_with q
          | none => false) := by
  intro xs ys
  induction xs, ys using nnzZip.induct with
  | case1 ys =>
    intro _ _
    simp [nnzZip]
  | case2 x xs =>
    intro _ _
    simp [nnzZip]
  | case3 i p xs j q ys h ih =>
    intro ha hb
    have hnone : List.lookup i ((j, q) :: ys) = none := by
      rw [lookup_cons_ne q ys (Nat.ne_of_lt h)]
      exact lookup_eq_none_of_forall
        (fun e he => by have := List.rel_of_pairwise_cons hb he; omega)
    simp only [nnzZip, if_pos h, List.countP_cons, hnone]
    rw [ih ha.of_cons hb]
    simp
  | case4 i p xs j q ys h1 h2 ih =>
    intro ha hb
    simp only [nnzZip, if_neg h1, if_pos h2]
    rw [ih ha hb.of_cons]
    refine List.countP_congr (fun e he => ?_)
    have hne : e.1 ≠ j := by
      rcases List.mem_cons.mp he with rfl | hmem
      · simp; omega
      · have := List.rel_of_pairwise_cons ha hmem; omega
    rw [lookup_cons_ne q ys hne]
  | case5 i p xs j q ys h1 h2 ih =>
    intro ha hb
    have heq : i = j := by omega
    subst heq
    simp only [nnzZip, if_neg h1, if_neg h2, List.countP_cons,
      List.lookup_cons_self]
    rw [ih ha.of_cons hb.of_cons]
    congr 1
    refine List.countP_congr (fun e he => ?_)
    have hne : e.1 ≠ i := by
      have := List.rel_of_pairwise_cons ha he; omega
    rw [lookup_cons_ne q ys hne]

/-- C4: sparse `commutes_with` is true iff the number of positions stored
in both operands with anticommuting stored Paulis is even; the declared
lengths play no role; `anticommutes_with` is the exact negation. -/
theorem c4_sparse_commutes (a b : PauliOperator)
    (ha : a.sortedEntries) (hb : b.sortedEntries) :
    (a.commutes_with b = true ↔ Even (overlapAnticommuteCount a b)) ∧
    (∀ n m : Nat,
      PauliOperator.commutes_with ⟨n, a.entries⟩ ⟨m, b.entries⟩ =
        a.commutes_with b) ∧
    a.anticommutes_with b = !a.commutes_with b := by
  refine ⟨?_, fun n m => rfl, rfl⟩
  unfold PauliOperator.commutes_with
  rw [nnzZip_anticommute_count a.entries b.entries ha hb]
  simp [overlapAnticommuteCount, Nat.even_iff]

/-- Witness for C4 at the spec's scenario: `X_1 Y_2 Z_3` and
`X_2 X_3 X_4` on 5 qubits commute (two anticommuting overlaps). -/
theorem c4_sparse_commutes_witness :
    PauliOperator.commutes_with ⟨5, [(1, .X), (2, .Y), (3, .Z)]⟩
      ⟨5, [(2, .X), (3, .X), (4, .X)]⟩ = true :=
  (c4_sparse_commutes ⟨5, [(1, .X), (2, .Y), (3, .Z)]⟩
    ⟨5, [(2, .X), (3, .X), (4, .X)]⟩ (by decide) (by decide)).1.mpr
    (by decide)

/-- The value dispatch of the sparse product preserves positions. -/
theorem mergedValue_fst (x : Nat × NnzEither) : (mergedValue x).1 = x.1 := by
  obtain ⟨pos, e⟩ := x
  cases e <;> rfl

/-- Every position produced by the `nnz_or_zip` merge comes from one of
the two operands. -/
theorem nnzOrZip_mem :
    ∀ (xs ys : List (Nat × Pauli)) (e : Nat × NnzEither),
      e ∈ nnzOrZip xs ys →
      e.1 ∈ xs.map Prod.fst ∨ e.1 ∈ ys.map Prod.fst := by
  intro xs ys
  induction xs, ys using nnzOrZip.induct with
  | case1 ys =>
    intro e he
    simp only [nnzOrZip, List.mem_map] at he
    obtain ⟨y, hy, rfl⟩ := he
    exact Or.inr (List.mem_map.mpr ⟨y, hy, rfl⟩)
  | case2 x xs =>
    intro e he
    simp only [nnzOrZip, List.mem_map] at he
    obtain ⟨y, hy, rfl⟩ := he
    exact Or.inl (List.mem_map.mpr ⟨y, hy, rfl⟩)
  | case3 i p xs j q ys h ih =>
    intro e he
    simp only [nnzOrZip, if_pos h, List.mem_cons] at he
    rcases he with rfl | he
    · exact Or.inl (by simp)
    · rcases ih e he with hx | hy
      · exact Or.inl (by simp only [List.map_cons]; exact List.mem_cons_of_mem _ hx)
      · exact Or.inr hy
  | case4 i p xs j q ys h1 h2 ih =>
    intro e he
    simp only [nnzOrZip, if_neg h1, if_pos h2, List.mem_cons] at he
    rcases he with rfl | he
    · exact Or.inr (by simp)
    · rcases ih e he with hx | hy
      · exact Or.inl hx
      · exact Or.inr (by simp only [List.map_cons]; exact List.mem_cons_of_mem _ hy)
  | case5 i p xs j q ys h1 h2 ih =>
    intro e he
    simp only [nnzOrZip, if_neg h1, if_neg h2, List.mem_cons] at he
    rcases he with rfl | he
    · exact Or.inl (by simp)
    · rcases ih e he with hx | hy
      · exact Or.inl (by simp only [List.map_cons]; exact List.mem_cons_of_mem _ hx)
      · exact Or.inr (by simp only [List.map_cons]; exact List.mem_cons_of_mem _ hy)

/-- The `nnz_or_zip` merge of two sorted entry lists is sorted. -/
theorem nnzOrZip_sorted :
    ∀ (xs ys : List (Nat × Pauli)),
      xs.Pairwise (fun e f => e.1 < f.1) →
      ys.Pairwise (fun e f => e.1 < f.1) →
      (nnzOrZip xs ys).Pairwise (fun e f => e.1 < f.1) := by
  intro xs ys
  induction xs, ys using nnzOrZip.induct with
  | case1 ys =>
    intro _ hb
    simp only [nnzOrZip]
    exact List.pairwise_map.mpr hb
  | case2 x xs =>
    intro ha _
    simp only [nnzOrZip]
    exact List.pairwise_map.mpr ha
  | case3 i p xs j q ys h ih =>
    intro ha hb
    simp only [nnzOrZip, if_pos h]
    refine List.pairwise_cons.mpr ⟨?_, ih ha.of_cons hb⟩
    intro f hf
    rcases nnzOrZip_mem xs ((j, q) :: ys) f hf with hx | hy
    · exact keys_lt_of_pairwise ha f.1 hx
    · simp only [List.map_cons, List.mem_cons] at hy
      rcases hy with h' | h'
      · omega
      · have := keys_lt_of_pairwise hb f.1 h'; omega
  | case4 i p xs j q ys h1 h2 ih =>
    intro ha hb
    simp only [nnzOrZip, if_neg h1, if_pos h2]
    refine List.pairwise_cons.mpr ⟨?_, ih ha hb.of_cons⟩
    intro f hf
    rcases nnzOrZip_mem ((i, p) :: xs) ys f hf with hx | hy
    · simp only [List.map_cons, List.mem_cons] at hx
      rcases hx with h' | h'
      · omega
      · have := keys_lt_of_pairwise ha f.1 h'; omega
    · exact keys_lt_of_pairwise hb f.1 hy
  | case5 i p xs j q ys h1 h2 ih =>
    intro ha hb
    simp only [nnzOrZip, if_neg h1, if_neg h2]
    refine List.pairwise_cons.mpr ⟨?_, ih ha.of_cons hb.of_cons⟩
    intro f hf
    rcases nnzOrZip_mem xs ys f hf with hx | hy
    · exact keys_lt_of_pairwise ha f.1 hx
    · have := keys_lt_of_pairwise hb f.1 hy; omega

/-- Lookup in the merged-and-dispatched product list: for sorted operands
it returns the one-sided value, or the phase-free product when the
position is stored in both operands. -/
theorem nnzOrZip_lookup :
    ∀ (xs ys : List (Nat × Pauli)),
      xs.Pairwise (fun e f => e.1 < f.1) →
      ys.Pairwise (fun e f => e.1 < f.1) →
      ∀ pos : Nat,
      ((nnzOrZip xs ys).map mergedValue).lookup pos =
        match xs.lookup pos, ys.lookup pos with
        | some p, none => some p
        | none, some q => some q
        | some p, some q => some (Pauli.mul p q)
        | none, none => none := by
  intro xs ys
  induction xs, ys using nnzOrZip.induct with
  | case1 ys =>
    intro _ _ pos
    simp only [nnzOrZip, List.map_map, List.lookup_nil]
    have hid : (mergedValue ∘ fun e : Nat × Pauli => (e.1, NnzEither.right e.2)) = id := by
      funext e; simp [mergedValue]
    rw [hid, List.map_id]
    cases List.lookup pos ys <;> rfl
  | case2 x xs =>
    intro _ _ pos
    simp only [nnzOrZip, List.map_map, List.lookup_nil]
    have hid : (mergedValue ∘ fun e : Nat × Pauli => (e.1, NnzEither.left e.2)) = id := by
      funext e; simp [mergedValue]
    rw [hid, List.map_id]
    cases List.lookup pos (x :: xs) <;> rfl
  | case3 i p xs j q ys h ih =>
    intro ha hb pos
    have hstep : nnzOrZip ((i, p) :: xs) ((j, q) :: ys) =
        (i, NnzEither.left p) :: nnzOrZip xs ((j, q) :: ys) := by
      simp only [nnzOrZip, if_pos h]
    rw [hstep, List.map_cons,
      show mergedValue (i, NnzEither.left p) = (i, p) from rfl]
    by_cases hpos : pos = i
    · subst hpos
      have hnone : List.lookup pos ((j, q) :: ys) = none := by
        rw [lookup_cons_ne q ys (Nat.ne_of_lt h)]
        exact lookup_eq_none_of_forall
          (fun e he => by have := List.rel_of_pairwise_cons hb he; omega)
      rw [List.lookup_cons_self, List.lookup_cons_self, hnone]
    · rw [lookup_cons_ne p ((nnzOrZip xs ((j, q) :: ys)).map mergedValue) hpos,
        lookup_cons_ne p xs hpos]
      exact ih ha.of_cons hb pos
  | case4 i p xs j q ys h1 h2 ih =>
    intro ha hb pos
    have hstep : nnzOrZip ((i, p) :: xs) ((j, q) :: ys) =
        (j, NnzEither.right q) :: nnzOrZip ((i, p) :: xs) ys := by
      simp only [nnzOrZip, if_neg h1, if_pos h2]
    rw [hstep, List.map_cons,
      show mergedValue (j, NnzEither.right q) = (j, q) from rfl]
    by_cases hpos : pos = j
    · subst hpos
      have hnone : List.lookup pos ((i, p) :: xs) = none := by
        rw [lookup_cons_ne p xs (Nat.ne_of_lt h2)]
        exact lookup_eq_none_of_forall
          (fun e he => by have := List.rel_of_pairwise_cons ha he; omega)
      rw [List.lookup_cons_self, List.lookup_cons_self, hnone]
    · rw [lookup_cons_ne q ((nnzOrZip ((i, p) :: xs) ys).map mergedValue) hpos,
        lookup_cons_ne q ys hpos]
      exact ih ha hb.of_cons pos
  | case5 i p xs j q ys h1 h2 ih =>
    intro ha hb pos
    have heq : i = j := by omega
    subst heq
    have hstep : nnzOrZip ((i, p) :: xs) ((i, q) :: ys) =
        (i, NnzEither.both p q) :: nnzOrZip xs ys := by
      simp only [nnzOrZip, if_neg h1, if_neg h2]
    rw [hstep, List.map_cons,
      show mergedValue (i, NnzEither.both p q) = (i, Pauli.mul p q) from rfl]
    by_cases hpos : pos = i
    · subst hpos
      rw [List.lookup_cons_self, List.lookup_cons_self, List.lookup_cons_self]
    · rw [lookup_cons_ne (Pauli.mul p q) ((nnzOrZip xs ys).map mergedValue) hpos,
        lookup_cons_ne p xs hpos, lookup_cons_ne q ys hpos]
      exact ih ha.of_cons hb.of_cons pos

/-- Lookup commutes with dropping trivial entries from a sorted list:
an identity value found at the position disappears, everything else is
unchanged. -/
theorem filter_lookup_nontrivial :
    ∀ (l : List (Nat × Pauli)), l.Pairwise (fun e f => e.1 < f.1) →
      ∀ pos : Nat,
      (l.filter (fun e => e.2.is_non_trivial)).lookup pos =
        match l.lookup pos with
        | some v => if v.is_non_trivial then some v else none
        | none => none := by
  intro l
  induction l with
  | nil => intro _ pos; rfl
  | cons e t ih =>
    intro hp pos
    obtain ⟨k, v⟩ := e
    by_cases hv : v.is_non_trivial = true
    · rw [List.filter_cons_of_pos (by simpa using hv)]
      by_cases hpos : pos = k
      · subst hpos
        rw [List.lookup_cons_self, List.lookup_cons_self]
        simp [hv]
      · rw [lookup_cons_ne v (t.filter (fun e => e.2.is_non_trivial)) hpos,
          lookup_cons_ne v t hpos]
        exact ih hp.of_cons pos
    · rw [List.filter_cons_of_neg (by simpa using hv)]
      by_cases hpos : pos = k
      · subst hpos
        have hnone : (t.filter (fun e => e.2.is_non_trivial)).lookup pos = none := by
          apply lookup_eq_none_of_forall
          intro e he
          have hmem := List.mem_of_mem_filter he
          have := List.rel_of_pairwise_cons hp hmem
          omega
        rw [hnone, List.lookup_cons_self]
        simp [hv]
      · rw [lookup_cons_ne v t hpos]
        exact ih hp.of_cons pos

/-- Unzipping an entry list into its position and value columns and
zipping them back is the identity. -/
theorem zip_fst_snd {β : Type} :
    ∀ l : List (Nat × β), (l.map Prod.fst).zip (l.map Prod.snd) = l := by
  intro l
  induction l with
  | nil => rfl
  | cons e t ih => simp [ih]

/-- The `sprs` structure check accepts exactly the strictly-sorted
(pairwise increasing) index lists. -/
theorem sortedIndices_iff_pairwise :
    ∀ l : List Nat, sortedIndices l = true ↔ l.Pairwise (· < ·) := by
  intro l
  induction l with
  | nil => simp [sortedIndices]
  | cons a t ih =>
    cases t with
    | nil => simp [sortedIndices]
    | cons b t2 =>
      rw [List.pairwise_cons]
      simp only [sortedIndices, Bool.and_eq_true, decide_eq_true_eq, ih,
        List.pairwise_cons]
      constructor
      · rintro ⟨hab, hb, hp⟩
        refine ⟨?_, hb, hp⟩
        intro x hx
        rcases List.mem_cons.mp hx with rfl | hx
        · exact hab
        · exact lt_trans hab (hb x hx)
      · rintro ⟨hall, hb, hp⟩
        exact ⟨hall b (List.mem_cons_self _ _), hb, hp⟩

/-- The merged-and-dispatched list is sorted for sorted operands. -/
theorem merged_sorted (a b : PauliOperator)
    (ha : a.sortedEntries) (hb : b.sortedEntries) :
    ((nnzOrZip a.entries b.entries).map mergedValue).Pairwise
      (fun e f => e.1 < f.1) := by
  refine List.pairwise_map.mpr ?_
  exact (nnzOrZip_sorted a.entries b.entries ha hb).imp
    (fun hxy => by rw [mergedValue_fst, mergedValue_fst]; exact hxy)

/-- The kept entry list is sorted for sorted operands. -/
theorem keptEntries_sorted (a b : PauliOperator)
    (ha : a.sortedEntries) (hb : b.sortedEntries) :
    (keptEntries a b).Pairwise (fun e f => e.1 < f.1) :=
  (merged_sorted a b ha hb).filter _

/-- Every kept entry is non-trivial. -/
theorem keptEntries_nonTrivial (a b : PauliOperator) :
    ∀ e ∈ keptEntries a b, e.2 ≠ Pauli.I := by
  intro e he
  have := (List.mem_filter.mp he).2
  simpa [Pauli.is_non_trivial] using this

/-- Every kept position is in bounds when both operands are. -/
theorem keptEntries_bounded (a b : PauliOperator)
    (hba : a.inBounds) (hbb : b.inBounds) (hlen : a.length = b.length) :
    ∀ e ∈ keptEntries a b, e.1 < a.length := by
  intro e he
  have hmem : e ∈ (nnzOrZip a.entries b.entries).map mergedValue :=
    List.mem_of_mem_filter he
  obtain ⟨x, hx, rfl⟩ := List.mem_map.mp hmem
  rw [mergedValue_fst]
  rcases nnzOrZip_mem a.entries b.entries x hx with h' | h'
  · obtain ⟨f, hf, hfe⟩ := List.mem_map.mp h'
    have := hba f hf; omega
  · obtain ⟨f, hf, hfe⟩ := List.mem_map.mp h'
    have := hbb f hf; omega

/-- Lookup into the kept entry list realizes the spec's per-position
description of the sparse product. -/
theorem keptEntries_lookup (a b : PauliOperator)
    (ha : a.sortedEntries) (hb : b.sortedEntries)
    (hna : a.nonTrivialEntries) (hnb : b.nonTrivialEntries) (pos : Nat) :
    (keptEntries a b).lookup pos = specProductEntry a b pos := by
  unfold keptEntries specProductEntry
  rw [filter_lookup_nontrivial _ (merged_sorted a b ha hb) pos,
    nnzOrZip_lookup a.entries b.entries ha hb pos]
  rcases hla : a.entries.lookup pos with _ | p <;>
    rcases hlb : b.entries.lookup pos with _ | q
  · rfl
  · have hq : q ≠ Pauli.I := hnb (pos, q) (mem_of_lookup_some hlb)
    simp [Pauli.is_non_trivial, hq]
  · have hp : p ≠ Pauli.I := hna (pos, p) (mem_of_lookup_some hla)
    simp [Pauli.is_non_trivial, hp]
  · rfl

/-- The rebuild of the kept entries through `PauliOperator::new` succeeds
and stores exactly the kept entries. -/
theorem keptEntries_new (a b : PauliOperator)
    (ha : a.sortedEntries) (hb : b.sortedEntries)
    (hba : a.inBounds) (hbb : b.inBounds) (hlen : a.length = b.length) :
    PauliOperator.new a.length ((keptEntries a b).map Prod.fst)
      ((keptEntries a b).map Prod.snd) = some ⟨a.length, keptEntries a b⟩ := by
  have hcount : ¬ ((keptEntries a b).map Prod.fst).length ≠
      ((keptEntries a b).map Prod.snd).length := by simp
  have hfind : ((keptEntries a b).map Prod.fst).find?
      (fun pos => a.length ≤ pos) = none := by
    refine List.find?_eq_none.mpr ?_
    intro x hx
    obtain ⟨e, he, rfl⟩ := List.mem_map.mp hx
    have := keptEntries_bounded a b hba hbb hlen e he
    simp only [decide_eq_true_eq]
    omega
  have hchain : sortedIndices ((keptEntries a b).map Prod.fst) = true :=
    (sortedIndices_iff_pairwise _).mpr
      (List.pairwise_map.mpr (keptEntries_sorted a b ha hb))
  unfold PauliOperator.new PauliOperator.tryNew csVecNew
  rw [if_neg hcount, hfind, if_pos hchain, zip_fst_snd]

/-- C2: sparse multiplication errors with `IncompatibleLength` carrying
the two declared lengths when they differ; for equal lengths it succeeds
with a sorted, unique-position, all-non-trivial entry list realizing the
merge of the two operands position by position. -/
theorem c2_sparse_multiply (a b : PauliOperator)
    (ha : a.sortedEntries) (hb : b.sortedEntries)
    (hba : a.inBounds) (hbb : b.inBounds)
    (hna : a.nonTrivialEntries) (hnb : b.nonTrivialEntries) :
    (a.length ≠ b.length →
      a.multiply_with b =
        Except.error (PauliError.IncompatibleLength a.length b.length)) ∧
    (a.length = b.length → ∃ c : PauliOperator,
      a.multiply_with b = Except.ok (some c) ∧
      c.length = a.length ∧ c.sortedEntries ∧
      (∀ e ∈ c.entries, e.2 ≠ Pauli.I) ∧
      (∀ pos : Nat, c.entries.lookup pos = specProductEntry a b pos)) := by
  constructor
  · intro h
    unfold PauliOperator.multiply_with
    rw [if_pos h]
  · intro hlen
    refine ⟨⟨a.length, keptEntries a b⟩, ?_, rfl,
      keptEntries_sorted a b ha hb, keptEntries_nonTrivial a b,
      fun pos => keptEntries_lookup a b ha hb hna hnb pos⟩
    have hmw : a.multiply_with b = Except.ok (PauliOperator.new a.length
        ((keptEntries a b).map Prod.fst) ((keptEntries a b).map Prod.snd)) := by
      unfold PauliOperator.multiply_with
      rw [if_neg (by omega)]
      rfl
    rw [hmw, keptEntries_new a b ha hb hba hbb hlen]

/-- Witness for C2 at the spec's scenario: sparse multiplication of a
length-5 by a length-4 operator fails with the pair (5, 4). -/
theorem c2_sparse_multiply_witness :
    PauliOperator.multiply_with ⟨5, [(1, .X), (2, .Y), (3, .Z)]⟩
        ⟨4, [(0, .X)]⟩ =
      Except.error (PauliError.IncompatibleLength 5 4) :=
  (c2_sparse_multiply ⟨5, [(1, .X), (2, .Y), (3, .Z)]⟩ ⟨4, [(0, .X)]⟩
    (by decide) (by decide) (by decide) (by decide) (by decide)
    (by decide)).1 (by decide)

/-- Every non-identity Pauli is self-inverse under the phase-free
product, and so is the identity. -/
theorem pauli_mul_self (p : Pauli) : Pauli.mul p p = .I := by
  cases p <;> rfl

/-- Merging an entry list with itself yields a `both` tag at every
entry. -/
theorem nnzOrZip_self :
    ∀ l : List (Nat × Pauli),
      nnzOrZip l l = l.map (fun e => (e.1, NnzEither.both e.2 e.2)) := by
  intro l
  induction l with
  | nil => simp [nnzOrZip]
  | cons e t ih =>
    obtain ⟨i, p⟩ := e
    simp only [nnzOrZip, if_neg (lt_irrefl i), List.map_cons, ih]

/-- C8: multiplying any sparse operator by itself succeeds and yields the
all-identity operator of the same declared length — zero stored entries,
weight 0. -/
theorem c8_sparse_self_inverse :
    ∀ op : PauliOperator, ∃ c : PauliOperator,
      op.multiply_with op = Except.ok (some c) ∧
      c.length = op.length ∧ c.weight = 0 ∧ c.entries = [] := by
  intro op
  refine ⟨⟨op.length, []⟩, ?_, rfl, rfl, rfl⟩
  unfold PauliOperator.multiply_with
  rw [if_neg (by omega)]
  have hkept : ((nnzOrZip op.entries op.entries).map mergedValue).filter
      (fun e => e.2.is_non_trivial) = [] := by
    rw [nnzOrZip_self op.entries, List.map_map]
    refine List.filter_eq_nil_iff.mpr ?_
    intro x hx
    obtain ⟨e, he, rfl⟩ := List.mem_map.mp hx
    simp [mergedValue, pauli_mul_self, Pauli.is_non_trivial]
  simp only [hkept]
  rfl

/-- The out-of-bound scan in `try_new` finds nothing when every position
is below the declared length. -/
theorem tryNew_find_none (length : Nat) (ps : List Nat)
    (hb : ∀ p ∈ ps, p < length) :
    ps.find? (fun pos => length ≤ pos) = none := by
  refine List.find?_eq_none.mpr ?_
  intro x hx
  simp only [decide_eq_true_eq]
  have := hb x hx
  omega

/-- `try_new` succeeds on count-matched, in-bound, strictly sorted input,
storing the zipped entries exactly as given. -/
theorem tryNew_ok_of_sorted (length : Nat) (ps : List Nat) (vs : List Pauli)
    (hc : ps.length = vs.length) (hb : ∀ p ∈ ps, p < length)
    (hs : sortedIndices ps = true) :
    PauliOperator.tryNew length ps vs =
      Except.ok (some ⟨length, ps.zip vs⟩) := by
  have hne : ¬ ps.length ≠ vs.length := by omega
  unfold PauliOperator.tryNew csVecNew
  rw [if_neg hne, tryNew_find_none length ps hb, if_pos hs]

/-- `try_new` hits the backing `CsVec::new` panic (`.ok none`) on
count-matched, in-bound, but unsorted input. -/
theorem tryNew_panic_of_unsorted (length : Nat) (ps : List Nat)
    (vs : List Pauli) (hc : ps.length = vs.length)
    (hb : ∀ p ∈ ps, p < length) (hs : sortedIndices ps = false) :
    PauliOperator.tryNew length ps vs = Except.ok none := by
  have hne : ¬ ps.length ≠ vs.length := by omega
  unfold PauliOperator.tryNew csVecNew
  rw [if_neg hne, tryNew_find_none length ps hb]
  simp [hs]

/-- Zipping a strictly sorted position list against values of equal
count gives a strictly key-sorted entry list. -/
theorem zip_pairwise_of_pairwise (ps : List Nat) (vs : List Pauli)
    (hc : ps.length = vs.length) (hp : ps.Pairwise (· < ·)) :
    (ps.zip vs).Pairwise (fun e f => e.1 < f.1) := by
  have hmap : (ps.zip vs).map Prod.fst = ps := List.map_fst_zip ps vs (by omega)
  rw [← hmap] at hp
  exact List.pairwise_map.mp hp

/-- C5 counterexample: with matching counts and in-bound but unsorted
positions (length 3, positions [2,0]), construction does not succeed —
the backing sparse-vector constructor panics (modelled `.ok none`)
instead of sorting, refuting totality over validated input ordering. -/
theorem c5_construction_counterexample :
    PauliOperator.tryNew 3 [2, 0] [.X, .X] = Except.ok none ∧
    ∀ op : PauliOperator,
      PauliOperator.tryNew 3 [2, 0] [.X, .X] ≠ Except.ok (some op) := by
  have h1 : PauliOperator.tryNew 3 [2, 0] [.X, .X] = Except.ok none := rfl
  refine ⟨h1, fun op h => ?_⟩
  rw [h1] at h
  exact Option.noConfusion (Except.ok.inj h)

/-- C5 (amended): for count-matched, in-bound input, construction
succeeds exactly when the supplied positions are already strictly
increasing, and then stores them as given (sorted and unique); unsorted
or duplicated positions make the backing constructor panic instead of
being sorted or deduplicated. -/
theorem c5_construction_sorted (length : Nat) (ps : List Nat)
    (vs : List Pauli) (hc : ps.length = vs.length)
    (hb : ∀ p ∈ ps, p < length) :
    (ps.Pairwise (· < ·) →
      PauliOperator.tryNew length ps vs =
        Except.ok (some ⟨length, ps.zip vs⟩) ∧
      (ps.zip vs).Pairwise (fun e f => e.1 < f.1)) ∧
    (¬ ps.Pairwise (· < ·) →
      PauliOperator.tryNew length ps vs = Except.ok none) := by
  constructor
  · intro hp
    exact ⟨tryNew_ok_of_sorted length ps vs hc hb
        ((sortedIndices_iff_pairwise ps).mpr hp),
      zip_pairwise_of_pairwise ps vs hc hp⟩
  · intro hp
    refine tryNew_panic_of_unsorted length ps vs hc hb ?_
    cases hs : sortedIndices ps
    · rfl
    · exact absurd ((sortedIndices_iff_pairwise ps).mp hs) hp

/-- Witness for C5 (amended) at sorted concrete input. -/
theorem c5_construction_sorted_witness :
    PauliOperator.tryNew 3 [0, 2] [Pauli.X, Pauli.Y] =
      Except.ok (some ⟨3, [0, 2].zip [Pauli.X, Pauli.Y]⟩) ∧
    ([0, 2].zip [Pauli.X, Pauli.Y]).Pairwise (fun e f => e.1 < f.1) :=
  (c5_construction_sorted 3 [0, 2] [Pauli.X, Pauli.Y] rfl (by decide)).1
    (by decide)

/-- C6 counterexample: at length 4, positions [1,0], values [Z,Z] — equal
counts and in-bound positions — `try_new` neither returns a typed error
nor a valid operator: it panics in the backing constructor, refuting the
claimed error/success trichotomy. -/
theorem c6_tryNew_counterexample :
    PauliOperator.tryNew 4 [1, 0] [.Z, .Z] = Except.ok none ∧
    (∀ err : PauliError,
      PauliOperator.tryNew 4 [1, 0] [.Z, .Z] ≠ Except.error err) ∧
    (∀ op : PauliOperator,
      PauliOperator.tryNew 4 [1, 0] [.Z, .Z] ≠ Except.ok (some op)) := by
  have h1 : PauliOperator.tryNew 4 [1, 0] [.Z, .Z] = Except.ok none := rfl
  refine ⟨h1, fun err h => ?_, fun op h => ?_⟩
  · rw [h1] at h; exact Except.noConfusion h
  · rw [h1] at h; exact Option.noConfusion (Except.ok.inj h)

/-- C6 (amended): `try_new` returns `IncompatibleLength` with the two
counts when they differ, `OutOfBound(pos, length)` with the first
out-of-bound position otherwise, and for validated input returns a valid
operator provided the positions are strictly increasing — with unsorted
positions the backing constructor panics instead of returning an error;
the scenario `try_new(4, [5], [X])` fails with `OutOfBound(5, 4)`. -/
theorem c6_tryNew_errors (length : Nat) (ps : List Nat) (vs : List Pauli) :
    (ps.length ≠ vs.length →
      PauliOperator.tryNew length ps vs =
        Except.error (PauliError.IncompatibleLength ps.length vs.length)) ∧
    (ps.length = vs.length →
      ∀ pos : Nat, ps.find? (fun p => length ≤ p) = some pos →
        PauliOperator.tryNew length ps vs =
          Except.error (PauliError.OutOfBound pos length)) ∧
    (ps.length = vs.length → (∀ p ∈ ps, p < length) →
      ps.Pairwise (· < ·) →
      PauliOperator.tryNew length ps vs =
        Except.ok (some ⟨length, ps.zip vs⟩)) ∧
    (ps.length = vs.length → (∀ p ∈ ps, p < length) →
      ¬ ps.Pairwise (· < ·) →
      PauliOperator.tryNew length ps vs = Except.ok none) ∧
    PauliOperator.tryNew 4 [5] [Pauli.X] =
      Except.error (PauliError.OutOfBound 5 4) := by
  refine ⟨?_, ?_, ?_, ?_, rfl⟩
  · intro h
    unfold PauliOperator.tryNew
    rw [if_pos h]
  · intro hc pos hfind
    have hne : ¬ ps.length ≠ vs.length := by omega
    unfold PauliOperator.tryNew
    rw [if_neg hne, hfind]
  · intro hc hb hp
    exact tryNew_ok_of_sorted length ps vs hc hb
      ((sortedIndices_iff_pairwise ps).mpr hp)
  · intro hc hb hp
    refine tryNew_panic_of_unsorted length ps vs hc hb ?_
    cases hs : sortedIndices ps
    · rfl
    · exact absurd ((sortedIndices_iff_pairwise ps).mp hs) hp

/-- Witness for C6 (amended): an out-of-bound position is reported with
the offending position and length. -/
theorem c6_tryNew_errors_witness :
    PauliOperator.tryNew 2 [0, 5] [Pauli.X, Pauli.Z] =
      Except.error (PauliError.OutOfBound 5 2) :=
  (c6_tryNew_errors 2 [0, 5] [Pauli.X, Pauli.Z]).2.1 rfl 5 rfl
